import Mathlib

/-!
Shallow embedding of the structural-classification and text-mining pipeline of
`pdf-md-scan.py` (function `extract_pdf_to_markdown` and its helpers
`detect_headings_style` and `ocr_image_to_text`).

Conventions of the embedding:
* Python strings are Lean `String`s; only ASCII text is exercised, so the
  ASCII-only character classifiers of Lean (`Char.isAlpha`, `Char.isAlphanum`,
  `Char.isWhitespace`) model the regex classes `[A-Za-z]`, `[A-Za-z0-9]`,
  `\w`, `\s` of the source.
* Font sizes and coordinates are rationals (`ℚ`); Python `round(x, 1)` is
  modelled by exact round-half-to-even on rationals, and the float literal
  `1.1` by the rational `11/10`.
* Python dicts (which preserve insertion order) are association lists with
  insert-or-update operations that preserve that order.
* Fallible external calls (image decoding, text recognition) are modelled with
  `Option`; an exception that the source does not catch is an `Except.error`.
-/

set_option maxRecDepth 10000

namespace PdfMdScan

unseal Rat.mul Rat.sub Nat.gcd

/-- Python `str.strip()` (both-ends whitespace trim), as used on `line_text`
throughout `extract_pdf_to_markdown`. -/
def pyStrip (s : String) : String :=
  String.mk (((s.data.dropWhile Char.isWhitespace).reverse.dropWhile Char.isWhitespace).reverse)

/-- Python `str.rstrip()` (right whitespace trim), as used for code and plain
text lines (src lines 182, 194). -/
def pyRstrip (s : String) : String :=
  String.mk ((s.data.reverse.dropWhile Char.isWhitespace).reverse)

/-- Python `str.lower()` for the ASCII strings handled by the miner. -/
def pyLower (s : String) : String :=
  String.mk (s.data.map Char.toLower)

/-- Python `str.startswith(pre)`. -/
def strStartsWith (s pre : String) : Bool :=
  pre.data.isPrefixOf s.data

/-- Contiguous-sublist test on character lists. -/
def listInfix (needle : List Char) : List Char → Bool
  | [] => needle.isEmpty
  | c :: cs => needle.isPrefixOf (c :: cs) || listInfix needle cs

/-- Python substring containment `needle in hay`, used for the bold and
monospace font-name heuristics (src lines 126, 174-175). -/
def containsSub (hay needle : String) : Bool :=
  listInfix needle.data hay.data

/-- The regex word class `\w` restricted to ASCII: letters, digits and the
underscore. -/
def isWordChar (c : Char) : Bool :=
  c.isAlphanum || c == '_'

/-- Floor of a rational as an integer (`num.fdiv den`, the denominator being
positive). -/
def ratFloor (x : ℚ) : ℤ :=
  x.num.fdiv (x.den : ℤ)

/-- Exact round-half-to-even of a rational to an integer, the rounding mode of
Python `round`.  The fractional part `r = x - ⌊x⌋` is compared with one half
via `2 * r` against `1`. -/
def roundHalfEven (x : ℚ) : ℤ :=
  let f : ℤ := ratFloor x
  let r : ℚ := x - (f : ℚ)
  if 2 * r < 1 then f
  else if 1 < 2 * r then f + 1
  else if f % 2 = 0 then f else f + 1

/-- Python `round(x, 1)` on an exact rational: one-decimal rounding used for
every font size (src lines 33 and 123); the result is the rounded number of
tenths divided by ten. -/
def round1 (x : ℚ) : ℚ :=
  mkRat (roundHalfEven (10 * x)) 10

/-- One text span of the external document tree: the fields of the PyMuPDF
span dict that the source reads (`text`, `size`, `font`, `color`, and the
left x of `bbox`). -/
structure Span where
  text : String
  size : ℚ
  font : String
  color : Int
  x0 : ℚ
deriving DecidableEq

/-- Dict update `m[k] = m.get(k, 0) + w`, insertion order preserved: the
accumulation step of `size_counts` (src line 34). -/
def bumpBy (m : List (ℚ × Nat)) (k : ℚ) (w : Nat) : List (ℚ × Nat) :=
  match m with
  | [] => [(k, w)]
  | (k', v) :: rest => if k' = k then (k', v + w) :: rest else (k', v) :: bumpBy rest k w

/-- The `size_counts` table of `detect_headings_style` (src lines 24-35):
weight of each one-decimal-rounded size is the total character length of the
spans at that size.  The walk over pages, text blocks and lines is the
external document iterator; its output is the flattened span stream. -/
def buildSizeCounts (spans : List Span) : List (ℚ × Nat) :=
  spans.foldl (fun m sp => bumpBy m (round1 sp.size) sp.text.length) []

/-- One step of Python `max` over dict items with `key=dict.get`: keep the
current best entry unless the next one is strictly heavier (ties keep the
earlier key). -/
def maxStep (acc : Option (ℚ × Nat)) (kv : ℚ × Nat) : Option (ℚ × Nat) :=
  match acc with
  | none => some kv
  | some best => if best.2 < kv.2 then some kv else some best

/-- Python `max(size_counts, key=size_counts.get)` (src line 39): first key of
maximal weight in insertion order; `none` on the empty table (the source
returns `(None, [])` before taking the max in that case, src lines 36-37). -/
def maxByWeight (m : List (ℚ × Nat)) : Option ℚ :=
  (m.foldl maxStep none).map Prod.fst

/-- Stable descending insertion for rationals, modelling
`list.sort(reverse=True)` (src line 42). -/
def insertQDesc (x : ℚ) : List ℚ → List ℚ
  | [] => [x]
  | y :: ys => if x < y then y :: insertQDesc x ys else x :: y :: ys

/-- Stable descending sort for rationals: `heading_sizes.sort(reverse=True)`
(src line 42). -/
def sortQDesc (l : List ℚ) : List ℚ :=
  l.foldr insertQDesc []

/-- Body-size and heading-size selection from the histogram (src lines 36-43):
body size is the key with maximal weight; heading sizes are the keys strictly
larger than `base_size * 1.1`, sorted descending. -/
def detectFromCounts (sc : List (ℚ × Nat)) : Option ℚ × List ℚ :=
  match maxByWeight sc with
  | none => (none, [])
  | some base =>
      (some base, sortQDesc ((sc.map Prod.fst).filter (fun sz => decide (base * mkRat 11 10 < sz))))

/-- `detect_headings_style` (src lines 22-43) on the flattened span stream. -/
def detect_headings_style (spans : List Span) : Option ℚ × List ℚ :=
  detectFromCounts (buildSizeCounts spans)

/-- Python floor division `x // 20` on an exact rational, as an integer
(`int(left_x // 20)`, src line 151): the floor of `x / 20`, computed as
`num.fdiv (den * 20)`. -/
def floorDiv20 (x : ℚ) : ℤ :=
  x.num.fdiv ((x.den : ℤ) * 20)

/-- Dict assignment `m[k] = v` with Python insertion-order semantics. -/
def dictSet (m : List (ℚ × Nat)) (k : ℚ) (v : Nat) : List (ℚ × Nat) :=
  match m with
  | [] => [(k, v)]
  | (k', v') :: rest => if k' = k then (k, v) :: rest else (k', v') :: dictSet rest k v

/-- The `level_map` construction (src lines 95-99): largest heading size maps
to level 3, the second largest (when present) to level 4. -/
def buildLevelMap (heading_sizes : List ℚ) : List (ℚ × Nat) :=
  let m : List (ℚ × Nat) := []
  let m := match heading_sizes with
           | [] => m
           | h :: _ => dictSet m h 3
  match heading_sizes.drop 1 with
  | [] => m
  | h2 :: _ => dictSet m h2 4

/-- Dict lookup: `font_size in level_map` / `level_map[font_size]`
(src lines 128-129). -/
def assocLookup (m : List (ℚ × Nat)) (k : ℚ) : Option Nat :=
  match m with
  | [] => none
  | (k', v) :: rest => if k' = k then some v else assocLookup rest k

/-- The mutable state of the serializer loop: the `md_lines` output buffer and
the `collected_text_for_links` side channel (src lines 102-103). -/
structure PState where
  md_lines : List String
  collected : List String
deriving DecidableEq

/-- `md_lines and md_lines[-1].startswith("```")`, the last-line fence test of
the code-block logic (src lines 180, 189, 210). -/
def lastStartsFence (md : List String) : Bool :=
  match md.getLast? with
  | some l => strStartsWith l "```"
  | none => false

/-- `any(mono in font_name for mono in ("Courier", "Consolas", "Mono"))`
(src lines 174-175). -/
def isMonoFont (f : String) : Bool :=
  containsSub f "Courier" || containsSub f "Consolas" || containsSub f "Mono"

/-- `re.match(r"^(\d+)[\.\)]\s+", stripped)` (src line 157): returns the digit
group when the stripped line starts with one or more digits, then `.` or `)`,
then at least one whitespace character. -/
def numberedDigits (stripped : String) : Option String :=
  let ds := stripped.data.takeWhile Char.isDigit
  let rest := stripped.data.dropWhile Char.isDigit
  if ds.isEmpty then none
  else
    match rest with
    | [] => none
    | p :: r2 =>
        if (p == '.' || p == ')') &&
           (match r2 with | d :: _ => d.isWhitespace | [] => false) then
          some (String.mk ds)
        else none

/-- `re.sub(r"^(\*|-|•|◦|▪|\d+[\.\)])\s*", "", stripped)` (src line 166):
drop one leading list marker (a bullet glyph or digits followed by `.` or `)`)
and any whitespace after it; anchored, so at most one replacement. -/
def stripListMarker (stripped : String) : String :=
  match stripped.data with
  | [] => stripped
  | c :: rest =>
      if c == '*' || c == '-' || c == '•' || c == '◦' || c == '▪' then
        String.mk (rest.dropWhile Char.isWhitespace)
      else
        let ds := (c :: rest).takeWhile Char.isDigit
        let after := (c :: rest).dropWhile Char.isDigit
        if ds.isEmpty then stripped
        else
          match after with
          | [] => stripped
          | p :: r3 =>
              if p == '.' || p == ')' then String.mk (r3.dropWhile Char.isWhitespace)
              else stripped

/-- One iteration of the text-line loop of `extract_pdf_to_markdown`
(src lines 115-195): heading check, bold/colored subheading check, list-item
check, monospace code-line handling (with the last-line-based fence opening of
src lines 180-182), and the plain-text fall-through (with the
never-firing close condition of src lines 189-192 kept verbatim). -/
def processTextLine (lm : List (ℚ × Nat)) (base : Option ℚ) (st : PState)
    (spans : List Span) : PState :=
  match spans with
  | [] => st
  | first :: _ =>
    let line_text := String.join (spans.map Span.text)
    let font_size := round1 first.size
    let is_bold := containsSub first.font "Bold"
    match assocLookup lm font_size with
    | some level =>
        ⟨st.md_lines ++ [String.mk (List.replicate level '#') ++ " " ++ pyStrip line_text],
         st.collected ++ [pyStrip line_text]⟩
    | none =>
      if (some font_size == base) && (is_bold || first.color != 0) then
        ⟨st.md_lines ++ ["#### " ++ pyStrip line_text],
         st.collected ++ [pyStrip line_text]⟩
      else
        let stripped := pyStrip line_text
        let indent_level : ℤ := floorDiv20 first.x0
        let bulletMatch := strStartsWith stripped "* " || strStartsWith stripped "- " ||
          strStartsWith stripped "•" || strStartsWith stripped "◦" || strStartsWith stripped "▪"
        let markerOpt : Option String :=
          if bulletMatch then some "-"
          else (numberedDigits stripped).map (fun d => d ++ ".")
        match markerOpt with
        | some marker =>
            let indent := String.mk (List.replicate (4 * (max 0 indent_level).toNat) ' ')
            let content := stripListMarker stripped
            ⟨st.md_lines ++ [indent ++ marker ++ " " ++ content], st.collected ++ [content]⟩
        | none =>
            if isMonoFont first.font then
              let md := if st.md_lines.isEmpty || !lastStartsFence st.md_lines
                        then st.md_lines ++ ["```"] else st.md_lines
              ⟨md ++ [pyRstrip line_text], st.collected⟩
            else
              let md := if !st.md_lines.isEmpty && lastStartsFence st.md_lines &&
                           !(st.md_lines.getLast? == some "```")
                        then st.md_lines ++ ["```"] else st.md_lines
              ⟨md ++ [pyRstrip line_text], st.collected ++ [pyRstrip line_text]⟩

/-- The text-line loop over the whole document in reading order. -/
def processTextLines (lm : List (ℚ × Nat)) (base : Option ℚ) (st : PState)
    (docLines : List (List Span)) : PState :=
  docLines.foldl (processTextLine lm base) st

/-- End-of-document fence closing (src lines 209-211), kept verbatim: append a
closing fence only when the last line starts with three backticks but is not
exactly the bare fence marker. -/
def closeAtEnd (md : List String) : List String :=
  if !md.isEmpty && lastStartsFence md && !(md.getLast? == some "```") then
    md ++ ["```"]
  else md

/-- Maximal runs of `\w` characters of a character stream: the matches of
`re.findall(r"\b\w+\b", text)` (src line 231).  First argument is the current
run, reversed. -/
def wTokensAux : List Char → List Char → List (List Char)
  | cur, [] => if cur.isEmpty then [] else [cur.reverse]
  | cur, c :: cs =>
      if isWordChar c then wTokensAux (c :: cur) cs
      else if cur.isEmpty then wTokensAux [] cs
      else cur.reverse :: wTokensAux [] cs

/-- `tokens = re.findall(r"\b\w+\b", text)` (src line 231). -/
def wTokens (s : String) : List String :=
  (wTokensAux [] s.data).map String.mk

/-- Whether one maximal `\w` run is a match of
`\b[A-Za-z][A-Za-z0-9]+\b`: a leading ASCII letter followed by at least one
letter or digit, no underscore anywhere (an interior underscore or a leading
digit makes the word boundaries of the pattern unsatisfiable inside the run). -/
def wordPatternOK : List Char → Bool
  | [] => false
  | c :: rest => c.isAlpha && !rest.isEmpty && rest.all (fun d => d.isAlpha || d.isDigit)

/-- `words = re.findall(r"\b[A-Za-z][A-Za-z0-9]+\b", text)` (src line 218). -/
def minerWords (s : String) : List String :=
  (wTokens s).filter (fun t => wordPatternOK t.data)

/-- The stopword set of the miner (src line 220). -/
def stopwords : List String :=
  ["the", "and", "or", "of", "to", "a", "in", "is", "for", "on", "with",
   "this", "that", "by", "are"]

/-- The shared candidate filter: length at least 4 and lower-cased form not a
stopword (src lines 223 and 235). -/
def passFilter (t : String) : Bool :=
  decide (4 ≤ t.length) && !(stopwords.contains (pyLower t))

/-- Dict update `m[k] = m.get(k, 0) + 1`, insertion order preserved
(src lines 228 and 236). -/
def bump (m : List (String × Nat)) (k : String) : List (String × Nat) :=
  match m with
  | [] => [(k, 1)]
  | (k', v) :: rest => if k' = k then (k', v + 1) :: rest else (k', v) :: bump rest k

/-- The single-word candidate loop (src lines 221-228). -/
def singleCandidates (text : String) : List (String × Nat) :=
  (minerWords text).foldl (fun m w => if passFilter w then bump m w else m) []

/-- Adjacent pairs of a list: `tokens[i:i+2]` for `i in range(len(tokens)-1)`
(src lines 232-233). -/
def pairsAdj {α : Type} : List α → List (α × α)
  | a :: b :: t => (a, b) :: pairsAdj (b :: t)
  | _ => []

/-- The full candidate table after the bigram loop (src lines 229-236): the
single-word table extended with every adjacent token pair whose two tokens
both pass the filter, joined by a single space. -/
def allCandidates (text : String) : List (String × Nat) :=
  (pairsAdj (wTokens text)).foldl
    (fun m ab => if passFilter ab.1 && passFilter ab.2 then bump m (ab.1 ++ " " ++ ab.2) else m)
    (singleCandidates text)

/-- Stable insertion for the descending-length sort of the qualifying terms. -/
def insertLenDesc (x : String) : List String → List String
  | [] => [x]
  | y :: ys => if x.length < y.length then y :: insertLenDesc x ys else x :: y :: ys

/-- `link_terms.sort(key=len, reverse=True)` (src line 241): stable descending
sort by character length. -/
def sortLenDesc (l : List String) : List String :=
  l.foldr insertLenDesc []

/-- The qualifying terms (src lines 239-241): candidates with frequency at
least 2, in descending character-length order. -/
def linkTerms (text : String) : List String :=
  sortLenDesc (((allCandidates text).filter (fun kv => decide (2 ≤ kv.2))).map Prod.fst)

/-- Word-character status of an optional character; a string edge counts as a
non-word character, as in the regex `\b` semantics. -/
def optIsWord : Option Char → Bool
  | none => false
  | some c => isWordChar c

/-- The regex word boundary `\b` between two adjacent subject positions. -/
def wordBoundary (a b : Option Char) : Bool :=
  optIsWord a != optIsWord b

/-- The replacement lambda `repl` (src lines 259-262): wrap the matched text
in double brackets unless the match itself starts with `[[` (which a match of
the bare term pattern never does). -/
def wrapRepl (t : List Char) : List Char :=
  if ['[', '['].isPrefixOf t then t else '[' :: '[' :: (t ++ [']', ']'])

/-- Left-to-right non-overlapping scan of
`re.sub(r"\b" + re.escape(term) + r"\b", repl, line)` (src lines 257-263):
at each position, if the literal term starts here with a word boundary on both
sides, emit the replacement and continue after the match, else copy one
character.  `prev` is the subject character before the current position; the
fuel argument (initially the subject length, an upper bound on the number of
steps) makes the recursion structural.  The source only ever calls this with
nonempty terms (qualifying terms have length at least 4). -/
def subScan (T : List Char) (prev : Option Char) : Nat → List Char → List Char
  | _, [] => []
  | 0, s => s
  | fuel + 1, c :: cs =>
      if !T.isEmpty && T.isPrefixOf (c :: cs) &&
         wordBoundary prev (some c) &&
         wordBoundary T.getLast? (((c :: cs).drop T.length).head?) then
        wrapRepl T ++ subScan T T.getLast? fuel ((c :: cs).drop T.length)
      else
        c :: subScan T (some c) fuel cs

/-- One `re.sub` call of the annotator (src line 263). -/
def subTerm (term line : String) : String :=
  String.mk (subScan term.data none line.data.length line.data)

/-- The inner term loop of the annotator (src lines 254-263): each qualifying
term is substituted in turn into the current value of the line. -/
def annotateLine (terms : List String) (line : String) : String :=
  terms.foldl (fun l t => subTerm t l) line

/-- The annotator loop over `md_lines` (src lines 244-264), with the in-place
mutation made explicit: `prev` is the already-processed previous output line
(the source reads the live `md_lines[idx-1]`).  A line is left unchanged when
it starts with a fence marker, when the previous output line is exactly the
bare fence marker, or when it is an OCR note. -/
def annotatePassAux (terms : List String) (prev : Option String) :
    List String → List String
  | [] => []
  | l :: rest =>
      let lNew := if strStartsWith l "```" then l
                  else if prev == some "```" then l
                  else if strStartsWith l "> OCR Extracted" then l
                  else annotateLine terms l
      lNew :: annotatePassAux terms (some lNew) rest

/-- The wikilink annotation pass over the whole output buffer
(src lines 244-264). -/
def annotatePass (terms : List String) (lines : List String) : List String :=
  annotatePassAux terms none lines

/-- The OCR collaborators as the source uses them: two byte decoders (the
primary attempt and the fallback of the `except` branch) and a text
recognizer; `none` models a raised exception. -/
structure OcrEnv (B I : Type) where
  decodeFitz : B → Option I
  decodeStd : B → Option I
  recognize : I → Option String

/-- `ocr_image_to_text` (src lines 62-74): empty text when OCR support is
absent; otherwise the primary decode, on failure the fallback decode with no
surrounding handler, then recognition with no handler; a failure of the
fallback decode or of recognition propagates (`Except.error`). -/
def ocr_image_to_text {B I : Type} (ocrEnabled : Bool) (env : OcrEnv B I)
    (b : B) : Except Unit String :=
  if !ocrEnabled then Except.ok ""
  else
    match env.decodeFitz b with
    | some img =>
        (match env.recognize img with
         | some t => Except.ok (pyStrip t)
         | none => Except.error ())
    | none =>
        match env.decodeStd b with
        | some img =>
            (match env.recognize img with
             | some t => Except.ok (pyStrip t)
             | none => Except.error ())
        | none => Except.error ()

/-- An OCR environment in which both decode attempts raise. -/
def failEnv : OcrEnv Unit Unit :=
  ⟨fun _ => none, fun _ => none, fun _ => some ""⟩

/-- The authentication gate of `extract_pdf_to_markdown` (src lines 84-90):
`false` means the conversion aborts with an authentication error.  When the
document needs no password the supplied password is never validated. -/
def authGate (needsPass : Bool) (accepts : String → Bool)
    (password : Option String) : Bool :=
  if needsPass then
    match password with
    | none => false
    | some p => accepts p
  else true

/-! ### Helper lemmas -/

theorem mem_insertQDesc (x a : ℚ) (l : List ℚ) :
    a ∈ insertQDesc x l ↔ a = x ∨ a ∈ l := by
  induction l with
  | nil => simp [insertQDesc]
  | cons y ys ih =>
      by_cases h : x < y
      · simp only [insertQDesc, if_pos h, List.mem_cons, ih]
        tauto
      · simp only [insertQDesc, if_neg h, List.mem_cons]

theorem sorted_insertQDesc (x : ℚ) (l : List ℚ)
    (h : List.Sorted (fun a b : ℚ => b ≤ a) l) :
    List.Sorted (fun a b : ℚ => b ≤ a) (insertQDesc x l) := by
  induction l with
  | nil => simp [insertQDesc]
  | cons y ys ih =>
      rw [List.sorted_cons] at h
      obtain ⟨hy, hys⟩ := h
      by_cases hlt : x < y
      · simp only [insertQDesc, if_pos hlt]
        rw [List.sorted_cons]
        refine ⟨?_, ih hys⟩
        intro b hb
        rcases (mem_insertQDesc x b ys).1 hb with rfl | hbys
        · exact le_of_lt hlt
        · exact hy b hbys
      · simp only [insertQDesc, if_neg hlt]
        rw [List.sorted_cons]
        constructor
        · intro b hb
          rcases List.mem_cons.1 hb with rfl | hbys
          · exact le_of_not_lt hlt
          · exact le_trans (hy b hbys) (le_of_not_lt hlt)
        · rw [List.sorted_cons]
          exact ⟨hy, hys⟩

theorem mem_sortQDesc (a : ℚ) (l : List ℚ) :
    a ∈ sortQDesc l ↔ a ∈ l := by
  induction l with
  | nil => simp [sortQDesc]
  | cons y ys ih =>
      simp only [sortQDesc, List.foldr_cons] at *
      rw [mem_insertQDesc, ih, List.mem_cons]

theorem sorted_sortQDesc (l : List ℚ) :
    List.Sorted (fun a b : ℚ => b ≤ a) (sortQDesc l) := by
  induction l with
  | nil => simp [sortQDesc]
  | cons y ys ih =>
      simp only [sortQDesc, List.foldr_cons] at *
      exact sorted_insertQDesc y _ ih

theorem nodup_keys_value (sc : List (ℚ × Nat)) (k₀ : ℚ) (v₀ : Nat)
    (hnd : (sc.map Prod.fst).Nodup) (hmem : (k₀, v₀) ∈ sc) :
    ∀ kv ∈ sc, kv.1 = k₀ → kv.2 = v₀ := by
  induction sc with
  | nil => cases hmem
  | cons a rest ih =>
      simp only [List.map_cons, List.nodup_cons] at hnd
      obtain ⟨hnotin, hndrest⟩ := hnd
      intro kv hkv hk
      rcases List.mem_cons.1 hmem with heq | hmemrest
      · rcases List.mem_cons.1 hkv with heq2 | hkvrest
        · rw [heq2, ← heq]
        · exfalso
          apply hnotin
          have ha : a.1 = k₀ := by rw [← heq]
          rw [ha]
          exact hk ▸ List.mem_map_of_mem Prod.fst hkvrest
      · rcases List.mem_cons.1 hkv with heq2 | hkvrest
        · exfalso
          apply hnotin
          have ha : a.1 = k₀ := by rw [← heq2, hk]
          rw [ha]
          exact List.mem_map_of_mem Prod.fst hmemrest
        · exact ih hndrest hmemrest kv hkvrest hk

theorem maxStep_run (k₀ : ℚ) (v₀ : Nat) :
    ∀ (m : List (ℚ × Nat)) (best : ℚ × Nat),
      (∀ kv ∈ m, kv.1 ≠ k₀ → kv.2 < v₀) →
      (∀ kv ∈ m, kv.1 = k₀ → kv.2 = v₀) →
      (best = (k₀, v₀) ∨ (best.2 < v₀ ∧ (k₀, v₀) ∈ m)) →
      m.foldl maxStep (some best) = some (k₀, v₀) := by
  intro m
  induction m with
  | nil =>
      intro best _ _ h3
      rcases h3 with rfl | ⟨_, habs⟩
      · rfl
      · cases habs
  | cons kv rest ih =>
      intro best h1 h2 h3
      have h1r : ∀ p ∈ rest, p.1 ≠ k₀ → p.2 < v₀ :=
        fun p hp => h1 p (List.mem_cons_of_mem kv hp)
      have h2r : ∀ p ∈ rest, p.1 = k₀ → p.2 = v₀ :=
        fun p hp => h2 p (List.mem_cons_of_mem kv hp)
      rw [List.foldl_cons]
      rcases h3 with rfl | ⟨hlt, hmem⟩
      · have hstep : maxStep (some (k₀, v₀)) kv = some (k₀, v₀) := by
          by_cases hk : kv.1 = k₀
          · have hv := h2 kv (List.mem_cons_self kv rest) hk
            simp [maxStep, hv]
          · have hv := h1 kv (List.mem_cons_self kv rest) hk
            have : ¬ v₀ < kv.2 := by omega
            simp [maxStep, this]
        rw [hstep]
        exact ih (k₀, v₀) h1r h2r (Or.inl rfl)
      · by_cases hk : kv.1 = k₀
        · have hv := h2 kv (List.mem_cons_self kv rest) hk
          have hkv : kv = (k₀, v₀) := by
            cases kv
            simp only at hk hv
            rw [hk, hv]
          have hstep : maxStep (some best) kv = some (k₀, v₀) := by
            rw [hkv]
            simp [maxStep, hlt]
          rw [hstep]
          exact ih (k₀, v₀) h1r h2r (Or.inl rfl)
        · have hv := h1 kv (List.mem_cons_self kv rest) hk
          have hmemrest : (k₀, v₀) ∈ rest := by
            rcases List.mem_cons.1 hmem with heq | hr
            · exact absurd (congrArg Prod.fst heq.symm) hk
            · exact hr
          by_cases hb : best.2 < kv.2
          · have hstep : maxStep (some best) kv = some kv := by
              simp [maxStep, hb]
            rw [hstep]
            exact ih kv h1r h2r (Or.inr ⟨hv, hmemrest⟩)
          · have hstep : maxStep (some best) kv = some best := by
              simp [maxStep, hb]
            rw [hstep]
            exact ih best h1r h2r (Or.inr ⟨hlt, hmemrest⟩)

theorem maxByWeight_unique (sc : List (ℚ × Nat)) (k₀ : ℚ) (v₀ : Nat)
    (hnd : (sc.map Prod.fst).Nodup) (hmem : (k₀, v₀) ∈ sc)
    (huniq : ∀ kv ∈ sc, kv.1 ≠ k₀ → kv.2 < v₀) :
    maxByWeight sc = some k₀ := by
  have h2 := nodup_keys_value sc k₀ v₀ hnd hmem
  cases sc with
  | nil => cases hmem
  | cons a rest =>
      have h1r : ∀ p ∈ rest, p.1 ≠ k₀ → p.2 < v₀ :=
        fun p hp => huniq p (List.mem_cons_of_mem a hp)
      have h2r : ∀ p ∈ rest, p.1 = k₀ → p.2 = v₀ :=
        fun p hp => h2 p (List.mem_cons_of_mem a hp)
      have hrun : (a :: rest).foldl maxStep none = some (k₀, v₀) := by
        rw [List.foldl_cons]
        show rest.foldl maxStep (some a) = some (k₀, v₀)
        by_cases hk : a.1 = k₀
        · have hv := h2 a (List.mem_cons_self a rest) hk
          have ha : a = (k₀, v₀) := by
            cases a
            simp only at hk hv
            rw [hk, hv]
          exact maxStep_run k₀ v₀ rest a h1r h2r (Or.inl ha)
        · have hv := huniq a (List.mem_cons_self a rest) hk
          have hmemrest : (k₀, v₀) ∈ rest := by
            rcases List.mem_cons.1 hmem with heq | hr
            · exact absurd (congrArg Prod.fst heq.symm) hk
            · exact hr
          exact maxStep_run k₀ v₀ rest a h1r h2r (Or.inr ⟨hv, hmemrest⟩)
      unfold maxByWeight
      rw [hrun]
      rfl

theorem lookup_buildLevelMap (s₀ : ℚ) (hs' : List ℚ)
    (hnd : (s₀ :: hs').Nodup) (s : ℚ) :
    assocLookup (buildLevelMap (s₀ :: hs')) s =
      if s = s₀ then some 3 else if hs'.head? = some s then some 4 else none := by
  cases hs' with
  | nil =>
      simp only [buildLevelMap, dictSet, List.drop_one, List.tail_cons, List.head?_nil]
      by_cases h : s = s₀
      · simp [assocLookup, h]
      · have : ¬ s₀ = s := fun hh => h hh.symm
        simp [assocLookup, this, h]
  | cons s₁ t =>
      have hne : s₀ ≠ s₁ := by
        rw [List.nodup_cons] at hnd
        intro hh
        exact hnd.1 (hh ▸ List.mem_cons_self s₁ t)
      simp only [buildLevelMap, List.drop_one, List.tail_cons, List.head?_cons]
      have hmap : dictSet (dictSet [] s₀ 3) s₁ 4 = [(s₀, 3), (s₁, 4)] := by
        simp [dictSet, hne]
      rw [hmap]
      by_cases h0 : s = s₀
      · subst h0
        simp [assocLookup]
      · have hn0 : ¬ s₀ = s := fun hh => h0 hh.symm
        by_cases h1 : s = s₁
        · subst h1
          simp [assocLookup, hne, Ne.symm hne]
        · have hn1 : ¬ s₁ = s := fun hh => h1 hh.symm
          simp [assocLookup, hn0, hn1, h0, h1]

theorem processTextLine_heading (lm : List (ℚ × Nat)) (base : Option ℚ)
    (st : PState) (first : Span) (rest : List Span) (lvl : Nat)
    (h : assocLookup lm (round1 first.size) = some lvl) :
    processTextLine lm base st (first :: rest) =
      ⟨st.md_lines ++
         [String.mk (List.replicate lvl '#') ++ " " ++
            pyStrip (String.join ((first :: rest).map Span.text))],
       st.collected ++ [pyStrip (String.join ((first :: rest).map Span.text))]⟩ := by
  simp only [processTextLine, h]

theorem mem_keys_bump (m : List (String × Nat)) (k k' : String) :
    k' ∈ (bump m k).map Prod.fst ↔ k' ∈ m.map Prod.fst ∨ k' = k := by
  induction m with
  | nil => simp [bump]
  | cons a rest ih =>
      by_cases h : a.1 = k
      · cases a
        simp only at h
        subst h
        simp [bump]
        tauto
      · cases a with
        | mk ka va =>
            simp only at h
            simp only [bump, if_neg h, List.map_cons, List.mem_cons, ih]
            tauto

theorem keys_singleFold (ws : List String) :
    ∀ (init : List (String × Nat)) (k : String),
      k ∈ ((ws.foldl (fun m w => if passFilter w then bump m w else m) init).map Prod.fst) →
      k ∈ init.map Prod.fst ∨ k ∈ ws := by
  induction ws with
  | nil => intro init k h; exact Or.inl h
  | cons w rest ih =>
      intro init k h
      rw [List.foldl_cons] at h
      rcases ih _ k h with hin | hrest
      · by_cases hw : passFilter w
        · rw [if_pos hw] at hin
          rcases (mem_keys_bump init w k).1 hin with hin2 | hkw
          · exact Or.inl hin2
          · subst hkw
            exact Or.inr (List.mem_cons_self k rest)
        · rw [if_neg hw] at hin
          exact Or.inl hin
      · exact Or.inr (List.mem_cons_of_mem w hrest)

theorem keys_phraseFold (ps : List (String × String)) :
    ∀ (init : List (String × Nat)) (k : String),
      k ∈ ((ps.foldl
              (fun m ab =>
                if passFilter ab.1 && passFilter ab.2 then bump m (ab.1 ++ " " ++ ab.2) else m)
              init).map Prod.fst) →
      k ∈ init.map Prod.fst ∨
        ∃ ab ∈ ps, k = ab.1 ++ " " ++ ab.2 ∧ passFilter ab.1 = true ∧ passFilter ab.2 = true := by
  induction ps with
  | nil => intro init k h; exact Or.inl h
  | cons ab rest ih =>
      intro init k h
      rw [List.foldl_cons] at h
      rcases ih _ k h with hin | ⟨ab2, hab2, hrest⟩
      · by_cases hc : passFilter ab.1 && passFilter ab.2
        · rw [if_pos hc] at hin
          rcases (mem_keys_bump init (ab.1 ++ " " ++ ab.2) k).1 hin with hin2 | rfl
          · exact Or.inl hin2
          · rw [Bool.and_eq_true] at hc
            exact Or.inr ⟨ab, List.mem_cons_self ab rest, rfl, hc.1, hc.2⟩
        · rw [if_neg hc] at hin
          exact Or.inl hin
      · exact Or.inr ⟨ab2, List.mem_cons_of_mem ab hab2, hrest⟩

theorem wTokensAux_chars :
    ∀ (rest cur : List Char), (∀ c ∈ cur, isWordChar c = true) →
      ∀ t ∈ wTokensAux cur rest, ∀ c ∈ t, isWordChar c = true := by
  intro rest
  induction rest with
  | nil =>
      intro cur hcur t ht c hc
      by_cases h : cur.isEmpty
      · rw [wTokensAux, if_pos h] at ht
        cases ht
      · rw [wTokensAux, if_neg h] at ht
        rcases List.mem_singleton.1 ht with rfl
        exact hcur c (List.mem_reverse.1 hc)
  | cons d ds ih =>
      intro cur hcur t ht c hc
      by_cases hw : isWordChar d
      · rw [wTokensAux, if_pos hw] at ht
        refine ih (d :: cur) ?_ t ht c hc
        intro e he
        rcases List.mem_cons.1 he with rfl | he2
        · exact hw
        · exact hcur e he2
      · rw [wTokensAux, if_neg hw] at ht
        by_cases hemp : cur.isEmpty
        · rw [if_pos hemp] at ht
          exact ih [] (by intro e he; cases he) t ht c hc
        · rw [if_neg hemp] at ht
          rcases List.mem_cons.1 ht with rfl | ht2
          · exact hcur c (List.mem_reverse.1 hc)
          · exact ih [] (by intro e he; cases he) t ht2 c hc

theorem wTokens_chars (s : String) (t : String) (ht : t ∈ wTokens s) :
    ∀ c ∈ t.data, isWordChar c = true := by
  unfold wTokens at ht
  rcases List.mem_map.1 ht with ⟨l, hl, rfl⟩
  intro c hc
  exact wTokensAux_chars s.data [] (by intro e he; cases he) l hl c hc

theorem annotatePassAux_next (terms : List String) :
    ∀ (lines : List String) (prev : Option String) (i : Nat),
      lines.get? i = some "```" →
      (annotatePassAux terms prev lines).get? (i + 1) = lines.get? (i + 1) := by
  intro lines
  induction lines with
  | nil => intro prev i h; cases h
  | cons l rest ih =>
      intro prev i h
      cases i with
      | zero =>
          have hl : l = "```" := by
            simpa using h
          subst hl
          have hfence : strStartsWith "```" "```" = true := by decide
          simp only [annotatePassAux, hfence, if_pos rfl]
          cases rest with
          | nil => rfl
          | cons r rest2 =>
              simp only [annotatePassAux]
              by_cases hr : strStartsWith r "```" = true
              · simp [hr]
              · simp [hr]
      | succ j =>
          have hrest : rest.get? j = some "```" := by
            simpa using h
          simp only [annotatePassAux]
          have := ih (some (if strStartsWith l "```" then l
                  else if prev == some "```" then l
                  else if strStartsWith l "> OCR Extracted" then l
                  else annotateLine terms l)) j hrest
          simpa using this

/-! ### Claim theorems -/

/-- C1: the claimed fence-balance invariant fails on the code.  A single
monospaced line (font `Courier`) produces the output `["```", "x"]`: the fence
is opened but never closed, the end-of-document force-close does not fire, and
the total number of fence markers is odd (1).  A contiguous run of two code
lines opens a fence before each of them (`["```", "a", "```", "b"]`) instead
of exactly once per run. -/
theorem c1_fence_balance_bug :
    (closeAtEnd (processTextLines (buildLevelMap []) (some 10) ⟨[], []⟩
        [[⟨"x", 10, "Courier", 0, 0⟩]]).md_lines = ["```", "x"]) ∧
    (["```", "x"].count "```" = 1) ∧
    (closeAtEnd (processTextLines (buildLevelMap []) (some 10) ⟨[], []⟩
        [[⟨"a", 10, "Courier", 0, 0⟩], [⟨"b", 10, "Courier", 0, 0⟩]]).md_lines
      = ["```", "a", "```", "b"]) := by
  refine ⟨by decide, by decide, by decide⟩

/-- C2: the Wikilink Annotator is not idempotent.  With the single qualifying
term `Security` (mined from a text in which it occurs twice), a first pass
turns the line `Security` into `[[Security]]`, and a second pass over that
already-annotated output adds a second bracket layer, producing
`[[[[Security]]]]`: the `repl` guard never fires because the regex match is
always the bare term. -/
theorem c2_annotator_not_idempotent :
    linkTerms "Security Security" = ["Security"] ∧
    annotatePass (linkTerms "Security Security") ["Security"] = ["[[Security]]"] ∧
    annotatePass (linkTerms "Security Security") ["[[Security]]"] = ["[[[[Security]]]]"] := by
  refine ⟨by decide, by decide, by decide⟩

/-- C3: longest-first ordering does not prevent double-bracketing.  When both
`Network Security` and `Security` qualify (each with frequency 2), annotating
the line `Network Security` wraps the phrase first and then the shorter term
matches inside the brackets, producing exactly the fragment the specification
forbids, `[[Network [[Security]]]]`; with the also-qualifying `Network` the
full pass yields `[[[[Network]] [[Security]]]]`. -/
theorem c3_longest_first_double_brackets :
    linkTerms "Network Security Network Security" =
      ["Network Security", "Security", "Network"] ∧
    annotateLine ["Network Security", "Security"] "Network Security" =
      "[[Network [[Security]]]]" ∧
    annotatePass (linkTerms "Network Security Network Security") ["Network Security"] =
      ["[[[[Network]] [[Security]]]]"] := by
  refine ⟨by decide, by decide, by decide⟩

/-- C4: no fence-close transition is emitted before a heading while a code
fence is open.  After a monospaced line has opened a fence, a following
heading-size line is appended directly (`["```", "x", "### Title"]`); the
claimed close-first rule would require a `"```"` line before the heading. -/
theorem c4_no_fence_close_before_heading :
    (processTextLines (buildLevelMap [14]) (some 10) ⟨[], []⟩
        [[⟨"x", 10, "Courier", 0, 0⟩], [⟨"Title", 14, "Helv", 0, 0⟩]]).md_lines
      = ["```", "x", "### Title"] := by
  decide

/-- C5 counterexample: an OCR decode failure is not silent.  In an environment
in which both decode attempts raise, `ocr_image_to_text` propagates the
exception (`Except.error`) instead of returning empty text, so the conversion
aborts. -/
theorem c5_ocr_failure_aborts :
    ocr_image_to_text true failEnv () = Except.error () := rfl

/-- C5 amended: when OCR support is absent the result is silently empty; a
failure of the primary decode falls back to the secondary decoder, but a
failure of the secondary decode or of text recognition propagates uncaught and
aborts the conversion.  The error cases are characterized exactly. -/
theorem c5_ocr_error_characterization {B I : Type} (enabled : Bool)
    (env : OcrEnv B I) (b : B) :
    (enabled = false → ocr_image_to_text enabled env b = Except.ok "") ∧
    (ocr_image_to_text enabled env b = Except.error () ↔
      enabled = true ∧
        ((∃ i, env.decodeFitz b = some i ∧ env.recognize i = none) ∨
         (env.decodeFitz b = none ∧ ∃ i, env.decodeStd b = some i ∧ env.recognize i = none) ∨
         (env.decodeFitz b = none ∧ env.decodeStd b = none))) := by
  cases enabled
  · refine ⟨fun _ => rfl, ?_⟩
    constructor
    · intro h
      simp [ocr_image_to_text] at h
    · rintro ⟨h, -⟩
      cases h
  · refine ⟨fun h => Bool.noConfusion h, ?_⟩
    cases hf : env.decodeFitz b with
    | some i =>
        cases hr : env.recognize i with
        | some t => simp [ocr_image_to_text, hf, hr]
        | none => simp [ocr_image_to_text, hf, hr]
    | none =>
        cases hs : env.decodeStd b with
        | some i =>
            cases hr : env.recognize i with
            | some t => simp [ocr_image_to_text, hf, hs, hr]
            | none => simp [ocr_image_to_text, hf, hs, hr]
        | none => simp [ocr_image_to_text, hf, hs]

/-- C5 witness: with OCR disabled the result is empty text; with OCR enabled
and both decoders failing the result is the propagated error. -/
theorem c5_ocr_error_characterization_witness :
    (ocr_image_to_text false failEnv () = Except.ok "") ∧
    (ocr_image_to_text true failEnv () = Except.error ()) :=
  ⟨(c5_ocr_error_characterization false failEnv ()).1 rfl,
   (c5_ocr_error_characterization true failEnv ()).2.mpr
     ⟨rfl, Or.inr (Or.inr ⟨rfl, rfl⟩)⟩⟩

/-- C6: exactly the two largest heading sizes are mapped (largest to depth 3,
second largest to depth 4, all other sizes unmapped), and a line whose rounded
representative font size equals `heading_sizes[0]` is always emitted as a
depth-3 heading, for every font name and color of the line. -/
theorem c6_heading_size_priority (s₀ : ℚ) (hs' : List ℚ)
    (hnd : (s₀ :: hs').Nodup) (base : Option ℚ) (st : PState)
    (first : Span) (rest : List Span) (hsz : round1 first.size = s₀) :
    (∀ s : ℚ, assocLookup (buildLevelMap (s₀ :: hs')) s =
        if s = s₀ then some 3 else if hs'.head? = some s then some 4 else none) ∧
    processTextLine (buildLevelMap (s₀ :: hs')) base st (first :: rest) =
      ⟨st.md_lines ++ ["### " ++ pyStrip (String.join ((first :: rest).map Span.text))],
       st.collected ++ [pyStrip (String.join ((first :: rest).map Span.text))]⟩ := by
  refine ⟨lookup_buildLevelMap s₀ hs' hnd, ?_⟩
  have hl : assocLookup (buildLevelMap (s₀ :: hs')) (round1 first.size) = some 3 := by
    rw [hsz, lookup_buildLevelMap s₀ hs' hnd s₀]
    simp
  rw [processTextLine_heading (buildLevelMap (s₀ :: hs')) base st first rest 3 hl]
  have hh : String.mk (List.replicate 3 '#') ++ " " = "### " := rfl
  rw [hh]

/-- C6 witness: with heading sizes `[14, 12]` a bold, colored line at size 14
is emitted as a depth-3 heading, and size 12 is looked up at depth 4. -/
theorem c6_heading_size_priority_witness :
    ((14 : ℚ) :: [12]).Nodup ∧
    round1 (Span.mk "Title" 14 "ArialBold" 5 0).size = 14 ∧
    processTextLine (buildLevelMap [14, 12]) (some 10) ⟨[], []⟩
        [⟨"Title", 14, "ArialBold", 5, 0⟩] =
      ⟨[] ++ ["### " ++ pyStrip (String.join (([⟨"Title", 14, "ArialBold", 5, 0⟩] :
          List Span).map Span.text))],
       [] ++ [pyStrip (String.join (([⟨"Title", 14, "ArialBold", 5, 0⟩] :
          List Span).map Span.text))]⟩ ∧
    assocLookup (buildLevelMap [14, 12]) 12 = some 4 :=
  ⟨by decide, by decide,
   (c6_heading_size_priority 14 [12] (by decide) (some 10) ⟨[], []⟩
      ⟨"Title", 14, "ArialBold", 5, 0⟩ [] (by decide)).2,
   by decide⟩

/-- C7: for a histogram with a unique maximum-weight size, that size is the
body size, and the heading sizes are exactly the keys strictly greater than
`body_size * 1.1`, in descending order. -/
theorem c7_histogram_body_and_headings (sc : List (ℚ × Nat)) (k₀ : ℚ) (v₀ : Nat)
    (hnd : (sc.map Prod.fst).Nodup) (hmem : (k₀, v₀) ∈ sc)
    (huniq : ∀ kv ∈ sc, kv.1 ≠ k₀ → kv.2 < v₀) :
    (detectFromCounts sc).1 = some k₀ ∧
    List.Sorted (fun a b : ℚ => b ≤ a) (detectFromCounts sc).2 ∧
    ∀ s : ℚ, s ∈ (detectFromCounts sc).2 ↔ s ∈ sc.map Prod.fst ∧ k₀ * mkRat 11 10 < s := by
  have hmax := maxByWeight_unique sc k₀ v₀ hnd hmem huniq
  have hdef : detectFromCounts sc =
      (some k₀,
        sortQDesc ((sc.map Prod.fst).filter (fun sz => decide (k₀ * mkRat 11 10 < sz)))) := by
    unfold detectFromCounts
    rw [hmax]
  rw [hdef]
  refine ⟨rfl, sorted_sortQDesc _, ?_⟩
  intro s
  rw [mem_sortQDesc, List.mem_filter]
  simp

/-- C7 witness: on the histogram `[(10, 4), (12, 2)]` the body size is 10 and
the heading list contains 12 (which exceeds `10 * 1.1`). -/
theorem c7_histogram_body_and_headings_witness :
    (([((10 : ℚ), 4), (12, 2)].map Prod.fst).Nodup) ∧
    (((10 : ℚ), 4) ∈ [((10 : ℚ), 4), (12, 2)]) ∧
    (∀ kv ∈ [((10 : ℚ), 4), (12, 2)], kv.1 ≠ 10 → kv.2 < 4) ∧
    (detectFromCounts [((10 : ℚ), 4), (12, 2)]).1 = some 10 ∧
    List.Sorted (fun a b : ℚ => b ≤ a) (detectFromCounts [((10 : ℚ), 4), (12, 2)]).2 ∧
    ((12 : ℚ) ∈ (detectFromCounts [((10 : ℚ), 4), (12, 2)]).2 ↔
      (12 : ℚ) ∈ [((10 : ℚ), 4), (12, 2)].map Prod.fst ∧ (10 : ℚ) * mkRat 11 10 < 12) :=
  ⟨by decide, by decide, by decide,
   (c7_histogram_body_and_headings [((10 : ℚ), 4), (12, 2)] 10 4
      (by decide) (by decide) (by decide)).1,
   (c7_histogram_body_and_headings [((10 : ℚ), 4), (12, 2)] 10 4
      (by decide) (by decide) (by decide)).2.1,
   (c7_histogram_body_and_headings [((10 : ℚ), 4), (12, 2)] 10 4
      (by decide) (by decide) (by decide)).2.2 12⟩

/-- C8 counterexample: the bigram tokens come from the general `\w+` pattern,
not from the alphabetic-leading word pattern.  On the text `1abc 2def` the
word pattern yields no tokens at all, yet the phrase candidate `1abc 2def` is
produced, so its constituents cannot be drawn from the word-pattern tokens. -/
theorem c8_phrase_tokens_not_word_pattern :
    ("1abc 2def", 1) ∈ allCandidates "1abc 2def" ∧
    minerWords "1abc 2def" = [] ∧
    ¬ ∃ a b : String, a ∈ minerWords "1abc 2def" ∧ b ∈ minerWords "1abc 2def" ∧
        "1abc 2def" = a ++ " " ++ b := by
  refine ⟨by decide, by decide, ?_⟩
  rintro ⟨a, b, ha, -, -⟩
  have h : minerWords "1abc 2def" = [] := by decide
  rw [h] at ha
  cases ha

/-- C8 amended: every two-word phrase candidate is a pair of adjacent tokens
of the general word-character pattern `\w+` (which also admits digit-leading
and underscore tokens), each constituent independently of length at least 4
and not a stopword under case-insensitive comparison. -/
theorem c8_phrase_candidates_amended (text p : String) (c : Nat)
    (hmem : (p, c) ∈ allCandidates text) (hsp : ' ' ∈ p.data) :
    ∃ a b : String, (a, b) ∈ pairsAdj (wTokens text) ∧ p = a ++ " " ++ b ∧
      passFilter a = true ∧ passFilter b = true := by
  have hkey : p ∈ (allCandidates text).map Prod.fst :=
    List.mem_map_of_mem Prod.fst hmem
  unfold allCandidates at hkey
  rcases keys_phraseFold (pairsAdj (wTokens text)) (singleCandidates text) p hkey with
    hsingle | ⟨ab, habmem, hform, hf1, hf2⟩
  · exfalso
    unfold singleCandidates at hsingle
    rcases keys_singleFold (minerWords text) [] p hsingle with h0 | hw
    · simp at h0
    · have hmemw : p ∈ wTokens text := by
        unfold minerWords at hw
        exact (List.mem_filter.1 hw).1
      have hchar := wTokens_chars text p hmemw ' ' hsp
      exact absurd hchar (by decide)
  · exact ⟨ab.1, ab.2, by simpa using habmem, hform, hf1, hf2⟩

/-- C8 amended witness: on the text `abcd efgh abcd` the phrase candidate
`abcd efgh` decomposes into the adjacent `\w+` tokens `abcd` and `efgh`, both
passing the filter. -/
theorem c8_phrase_candidates_amended_witness :
    (("abcd efgh", 1) ∈ allCandidates "abcd efgh abcd") ∧
    (' ' ∈ "abcd efgh".data) ∧
    (∃ a b : String, (a, b) ∈ pairsAdj (wTokens "abcd efgh abcd") ∧
       "abcd efgh" = a ++ " " ++ b ∧ passFilter a = true ∧ passFilter b = true) :=
  ⟨by decide, by decide,
   c8_phrase_candidates_amended "abcd efgh abcd" "abcd efgh" 1 (by decide) (by decide)⟩

/-- C9: during the annotation pass, every output line immediately following a
line that is exactly the bare fence marker is left completely unchanged,
whatever the qualifying terms and whether that line is code content or
ordinary body text after a fence close. -/
theorem c9_line_after_fence_unchanged (terms lines : List String) (i : Nat)
    (h : lines.get? i = some "```") :
    (annotatePass terms lines).get? (i + 1) = lines.get? (i + 1) :=
  annotatePassAux_next terms lines none i h

/-- C9 witness: the body line `Security Security` right after a bare fence
marker is not annotated even though the term `Security` qualifies. -/
theorem c9_line_after_fence_unchanged_witness :
    (["```", "Security Security"].get? 0 = some "```") ∧
    (annotatePass ["Security"] ["```", "Security Security"]).get? 1 =
      ["```", "Security Security"].get? 1 :=
  ⟨rfl, c9_line_after_fence_unchanged ["Security"] ["```", "Security Security"] 0 rfl⟩

/-- C10: authentication can fail only for an encrypted document.  When the
document needs no password the gate succeeds for every supplied password and
every validator (the password is never validated), and the gate fails exactly
when a password is required and the password is missing or rejected. -/
theorem c10_auth_only_when_encrypted (needsPass : Bool) (accepts : String → Bool)
    (pw : Option String) :
    (needsPass = false → authGate needsPass accepts pw = true) ∧
    (authGate needsPass accepts pw = false ↔
      needsPass = true ∧ (pw = none ∨ ∃ p, pw = some p ∧ accepts p = false)) := by
  cases needsPass
  · refine ⟨fun _ => rfl, ?_⟩
    constructor
    · intro h
      simp [authGate] at h
    · rintro ⟨h, -⟩
      cases h
  · refine ⟨fun h => Bool.noConfusion h, ?_⟩
    cases pw with
    | none => simp [authGate]
    | some p => simp [authGate]

/-- C10 witness: an unencrypted document with a wrong password and a rejecting
validator still passes the gate; an encrypted one with the same rejected
password fails it. -/
theorem c10_auth_only_when_encrypted_witness :
    authGate false (fun _ => false) (some "wrong") = true ∧
    authGate true (fun _ => false) (some "wrong") = false :=
  ⟨(c10_auth_only_when_encrypted false (fun _ => false) (some "wrong")).1 rfl,
   (c10_auth_only_when_encrypted true (fun _ => false) (some "wrong")).2.mpr
     ⟨rfl, Or.inr ⟨"wrong", rfl, rfl⟩⟩⟩

end PdfMdScan
